import Mathlib

/-!
Verification development for the neuralmonkey dataset module
(`neuralmonkey/dataset.py`): format classification, eager and lazy
datasets, batching, shuffling, and the keyword-argument series
conventions of `load_dataset_from_files`.

Modelling conventions.
* A file on disk is abstracted by `FileRepr`: the MIME type that
  `magic.from_file(path, mime=True)` reports for its content, the list
  of its text lines (what `PlainTextFileReader.read()` yields) and the
  list of its numeric records (what `np.load` returns).  The file system
  is a total map `FS` from paths to `FileRepr`.
* Python exceptions are modelled by the inductive `PyError`; each
  constructor corresponds to one `raise` site (or a runtime `TypeError`
  such as `len(list(None))`).  Fallible code returns `Except PyError`.
* Python generators are materialized: a function returning a generator
  is embedded as the function computing `list(generator)`.
* `random.shuffle` is modelled by an explicit permutation parameter: the
  list of indices the RNG would choose.
-/

namespace Neuralmonkey

/-- Exceptions raised by `dataset.py`, one constructor per raise site.
`unsupportedFormat` carries the detected MIME type and the path
(`"Unsupported data type: {}, file {}"`); `lengthMismatch` carries the
`"name: length"` report pairs; `typeError` stands for Python `TypeError`
raised by operations such as `len(list(None))` or iterating `None`. -/
inductive PyError where
  | unsupportedFormat (mime : String) (path : String)
  | noInputSeries
  | lengthMismatch (report : List (String × Nat))
  | sizeUnknown
  | missingSeries
  | typeError
  deriving DecidableEq

/-- Abstraction of one file's content: the MIME type detected by
`magic.from_file(path, mime=True)`, the decoded text lines (including
preprocessing input for `PlainTextFileReader`), and the numeric records
that `np.load` would return for it.  `β` is the item type. -/
structure FileRepr (β : Type) where
  mime : String
  lines : List β
  records : List β

/-- The file system: a total map from paths to file contents. -/
def FS (β : Type) : Type := String → FileRepr β

/-- Embeds `create_dataset_series(path, preprocess)` *materialized*
(`list(...)` applied to its result).  The source function contains
`yield`, so Python makes the whole function a generator:

* `file_type.startswith('text/')`: each line is yielded after
  `preprocess`, so materializing gives the preprocessed lines;
* `file_type == 'application/octet-stream'`: the body executes
  `return np.load(path)`, but a `return` with a value inside a
  generator merely stops iteration (the value becomes the
  `StopIteration` payload, which `list()` discards) — materializing
  yields the empty list, and the decoded array is lost;
* otherwise the generator raises
  `Exception("Unsupported data type: ...")` on its first step. -/
def create_dataset_series {β : Type} (fs : FS β) (path : String)
    (preprocess : β → β) : Except PyError (List β) :=
  let f := fs path
  if ("text/".data).isPrefixOf f.mime.data then
    Except.ok (f.lines.map preprocess)
  else if f.mime.data = "application/octet-stream".data then
    Except.ok []
  else
    Except.error (PyError.unsupportedFormat f.mime path)

/-- The value stored for one series inside `Dataset._series`.  Python is
dynamically typed here: eager loading stores a `list`, `shuffle`
re-stores a `tuple`, a numpy array may be stored directly, and
`LazyDataset` stores `None` placeholders.  The distinction matters
because `_check_series_lengths` tests `isinstance(v, list) or
isinstance(v, np.ndarray)` and `len(list(None))` raises `TypeError`. -/
inductive SeriesValue (β : Type) where
  | list (xs : List β)
  | tuple (xs : List β)
  | ndarray (xs : List β)
  | none
  deriving DecidableEq

/-- The items a `SeriesValue` holds (accessor used to state theorems);
`None` holds no items. -/
def SeriesValue.contents {β : Type} : SeriesValue β → List β
  | .list xs => xs
  | .tuple xs => xs
  | .ndarray xs => xs
  | .none => []

/-- Embeds Python `len(list(v))`: lists, tuples and arrays convert and
report their length; `list(None)` raises `TypeError`. -/
def SeriesValue.pyLenList {β : Type} : SeriesValue β → Except PyError Nat
  | .list xs => Except.ok xs.length
  | .tuple xs => Except.ok xs.length
  | .ndarray xs => Except.ok xs.length
  | .none => Except.error PyError.typeError

/-- Embeds `isinstance(v, list) or isinstance(v, np.ndarray)` (a Python
tuple is neither). -/
def SeriesValue.isListOrArray {β : Type} : SeriesValue β → Bool
  | .list _ => true
  | .ndarray _ => true
  | _ => false

/-- Embeds iterating over a stored series value (`for item in v`, or
unpacking in `zip(*...)`): iterating `None` raises `TypeError`. -/
def SeriesValue.iterate {β : Type} : SeriesValue β → Except PyError (List β)
  | .list xs => Except.ok xs
  | .tuple xs => Except.ok xs
  | .ndarray xs => Except.ok xs
  | .none => Except.error PyError.typeError

/-- Embeds `Dataset._check_series_lengths`: collect `len(list(v))` for
the values that are lists or numpy arrays; if more than one distinct
length occurs, build the `"{name}: {len(list(v))}"` report over *all*
series (this itself raises `TypeError` when it reaches a value such as
`None` that `list()` cannot convert) and raise the mismatch error. -/
def _check_series_lengths {β : Type} (series : List (String × SeriesValue β)) :
    Except PyError Unit :=
  let lengths := series.filterMap (fun sv =>
    match sv.2 with
    | SeriesValue.list xs => some xs.length
    | SeriesValue.ndarray xs => some xs.length
    | _ => Option.none)
  if 1 < lengths.dedup.length then
    match series.mapM (fun sv => (sv.2.pyLenList).map (fun n => (sv.1, n))) with
    | Except.ok report => Except.error (PyError.lengthMismatch report)
    | Except.error e => Except.error e
  else Except.ok ()

/-- The eager `Dataset`: a name, the `_series` mapping (modelled as an
insertion-ordered association list, as Python dicts preserve insertion
order and the source only iterates them), and the `series_outputs`
mapping. -/
structure Dataset (β : Type) where
  name : String
  series : List (String × SeriesValue β)
  series_outputs : List (String × String)

/-- Embeds `Dataset.__init__`: store the fields, then run
`_check_series_lengths`; a raise there means no object is produced. -/
def Dataset.make {β : Type} (name : String) (series : List (String × SeriesValue β))
    (series_outputs : List (String × String)) : Except PyError (Dataset β) :=
  match _check_series_lengths series with
  | Except.ok _ => Except.ok ⟨name, series, series_outputs⟩
  | Except.error e => Except.error e

/-- Embeds `Dataset.__len__`: 0 for an empty mapping, otherwise
`len(list(first_series))`. -/
def Dataset.size {β : Type} (d : Dataset β) : Except PyError Nat :=
  match d.series with
  | [] => Except.ok 0
  | sv :: _ => sv.2.pyLenList

/-- Embeds `Dataset.has_series`. -/
def Dataset.has_series {β : Type} (d : Dataset β) (nm : String) : Bool :=
  d.series.any (fun sv => sv.1 == nm)

/-- Embeds `Dataset.get_series`: `dict.get` when `allow_none`, plain
indexing (KeyError on absence) otherwise. -/
def Dataset.get_series {β : Type} (d : Dataset β) (nm : String) (allow_none : Bool) :
    Except PyError (Option (SeriesValue β)) :=
  if allow_none then
    Except.ok ((d.series.find? (fun sv => sv.1 == nm)).map Prod.snd)
  else
    match d.series.find? (fun sv => sv.1 == nm) with
    | some sv => Except.ok (some sv.2)
    | Option.none => Except.error PyError.missingSeries

/-- The accumulator loop of `Dataset.batch_serie`, materialized: append
each item to `buf` and flush `buf` whenever `len(buf) >= batch_size`;
after the loop, flush a non-empty remainder. -/
def batchLoop {β : Type} (k : Nat) : List β → List β → List (List β)
  | buf, [] => if buf.isEmpty then [] else [buf]
  | buf, x :: xs =>
    let buf2 := buf ++ [x]
    if k ≤ buf2.length then buf2 :: batchLoop k [] xs
    else batchLoop k buf2 xs

/-- Embeds the generator `Dataset.batch_serie` materialized, applied to
the item list of the series being batched. -/
def batch_serie {β : Type} (xs : List β) (k : Nat) : List (List β) :=
  batchLoop k [] xs

/-- `Dataset.batch_serie` at the dataset level: fetch the series with
`get_series` (KeyError propagates), iterate it (TypeError on `None`),
and run the batching loop. -/
def Dataset.batch_serie {β : Type} (d : Dataset β) (nm : String) (k : Nat) :
    Except PyError (List (List β)) :=
  match d.get_series nm false with
  | Except.error e => Except.error e
  | Except.ok Option.none => Except.error PyError.typeError
  | Except.ok (some v) =>
    match v.iterate with
    | Except.error e => Except.error e
    | Except.ok xs => Except.ok (Neuralmonkey.batch_serie xs k)

/-- Embeds Python `zip(*rows)` (as a list): repeatedly take the head of
every row until some row — or the row list itself — is exhausted.
`zip` with no arguments yields nothing. -/
def pyZip {α : Type} (rows : List (List α)) : List (List α) :=
  if h : rows.isEmpty || rows.any List.isEmpty then []
  else (rows.filterMap List.head?) :: pyZip (rows.map List.tail)
termination_by (rows.headD []).length
decreasing_by
  simp only [Bool.or_eq_true, not_or, List.any_eq_true, not_exists, not_and,
    List.isEmpty_iff] at h
  obtain ⟨h1, h2⟩ := h
  cases rows with
  | nil => exact absurd rfl h1
  | cons r rs =>
    have hr : r ≠ [] := by
      intro hre
      exact absurd (by simp [hre]) (h2 r (by simp))
    simp only [List.map_cons, List.headD_cons, List.length_tail]
    exact Nat.sub_lt (List.length_pos.mpr hr) Nat.one_pos

/-- Embeds `Dataset.shuffle`: zip the series values into rows
(`zip(*[...])`, TypeError if some value is `None`), let `random.shuffle`
reorder the rows — the RNG outcome is the explicit index list `p`, the
reordered list being `[zipped[p[0]], zipped[p[1]], ...]` — then unzip
(`zip(*zipped)`) and write each resulting tuple back under its key; keys
beyond the number of rebuilt columns keep their old value (the Python
`for ... in zip(keys, ...)` simply stops). -/
def Dataset.shuffle {β : Type} (d : Dataset β) (p : List Nat) :
    Except PyError (Dataset β) :=
  match (d.series.map Prod.snd).mapM SeriesValue.iterate with
  | Except.error e => Except.error e
  | Except.ok cols =>
    let zipped := pyZip cols
    let shuffled := p.filterMap (fun i => zipped.get? i)
    let newCols := pyZip shuffled
    Except.ok { d with series :=
      (d.series.zip newCols).map (fun kv => (kv.1.1, SeriesValue.tuple kv.2))
        ++ d.series.drop newCols.length }

/-- The `LazyDataset`: the inherited `Dataset` state (whose `_series`
holds a `None` placeholder per path) plus the path table and the
preprocessor. -/
structure LazyDataset (β : Type) where
  name : String
  series : List (String × SeriesValue β)
  series_outputs : List (String × String)
  series_paths : List (String × String)
  preprocess : β → β

/-- Embeds `LazyDataset.__init__`: delegate to `Dataset.__init__` with
`{s: None for s in series_paths}`, then record the paths and the
preprocessor. -/
def LazyDataset.make {β : Type} (name : String) (series_paths : List (String × String))
    (series_outputs : List (String × String)) (preprocess : β → β) :
    Except PyError (LazyDataset β) :=
  match Dataset.make name (series_paths.map (fun p => (p.1, SeriesValue.none)))
      series_outputs with
  | Except.ok d => Except.ok ⟨d.name, d.series, d.series_outputs, series_paths, preprocess⟩
  | Except.error e => Except.error e

/-- Embeds `LazyDataset.__len__`: unconditionally raises. -/
def LazyDataset.size {β : Type} (_ : LazyDataset β) : Except PyError Nat :=
  Except.error PyError.sizeUnknown

/-- Embeds `LazyDataset.has_series`: membership in `series_paths`. -/
def LazyDataset.has_series {β : Type} (ld : LazyDataset β) (nm : String) : Bool :=
  ld.series_paths.any (fun p => p.1 == nm)

/-- Python dict indexing `series_paths[name]`: the stored path, or
KeyError. -/
def dictGetPath (paths : List (String × String)) (nm : String) : Except PyError String :=
  match paths.find? (fun p => p.1 == nm) with
  | some p => Except.ok p.2
  | Option.none => Except.error PyError.missingSeries

/-- Embeds `LazyDataset.get_series` (materialized): return `None` when
`allow_none` and the name is absent; otherwise look the path up
(KeyError on absence) and build a *fresh* series from the file via
`create_dataset_series` — no generator state is stored on the dataset. -/
def LazyDataset.get_series {β : Type} (fs : FS β) (ld : LazyDataset β) (nm : String)
    (allow_none : Bool) : Except PyError (Option (List β)) :=
  if allow_none && !(LazyDataset.has_series ld nm) then
    Except.ok Option.none
  else
    match dictGetPath ld.series_paths nm with
    | Except.ok path => (create_dataset_series fs path ld.preprocess).map Option.some
    | Except.error e => Except.error e

/-- Embeds `LazyDataset.shuffle`: the body is `pass`, so the state is
returned unchanged. -/
def LazyDataset.shuffle {β : Type} (ld : LazyDataset β) : LazyDataset β := ld

/-- The characters `"_out"`, the literal part of the `SERIES_OUTPUT`
pattern. -/
def outChars : List Char := ['_', 'o', 'u', 't']

/-- Embeds `SERIES_SOURCE.match(key)` for `re.compile("s_([^_]*)$")`:
the key must start with `"s_"` and the remainder — the captured group —
may contain no underscore and must run to the end of the key. -/
def seriesSourceMatch : List Char → Option (List Char)
  | c1 :: c2 :: rest =>
    if c1 = 's' ∧ c2 = '_' ∧ rest.all (fun c => c != '_') then some rest
    else Option.none
  | _ => Option.none

/-- The backtracking search of `re.match("s_(.*)_out", key)` after the
literal `"s_"`: the greedy `(.*)` captures the *longest* prefix `n` of
the remainder such that `n ++ "_out"` is still a prefix of the
remainder; with no `$` anchor, anything may follow.  (The source keys
are Python identifiers, so the `.`-excludes-newline subtlety is moot.) -/
def findLastOut : List Char → Option (List Char)
  | [] => Option.none
  | c :: cs =>
    match findLastOut cs with
    | some n => some (c :: n)
    | Option.none => if outChars.isPrefixOf (c :: cs) then some [] else Option.none

/-- Embeds `SERIES_OUTPUT.match(key)` for `re.compile("s_(.*)_out")`
(note: no end anchor — `match` only requires the pattern to match a
prefix of the key). -/
def seriesOutputMatch : List Char → Option (List Char)
  | c1 :: c2 :: rest =>
    if c1 = 's' ∧ c2 = '_' then findLastOut rest else Option.none
  | _ => Option.none

/-- Embeds `_get_series_paths`: the keys matched by `SERIES_SOURCE`, in
order, mapped to their values under the captured series name. -/
def _get_series_paths (kwargs : List (String × String)) : List (String × String) :=
  kwargs.filterMap (fun kv =>
    (seriesSourceMatch kv.1.data).map (fun n => (String.mk n, kv.2)))

/-- Embeds `_get_series_outputs`: the keys matched by `SERIES_OUTPUT`,
in order, mapped to their values under the captured series name. -/
def _get_series_outputs (kwargs : List (String × String)) : List (String × String) :=
  kwargs.filterMap (fun kv =>
    (seriesOutputMatch kv.1.data).map (fun n => (String.mk n, kv.2)))

/-- Embeds `_get_name_from_paths`: `"dataset"` extended with `"-path"`
for every input path. -/
def _get_name_from_paths (series_paths : List (String × String)) : String :=
  series_paths.foldl (fun nm p => nm ++ "-" ++ p.2) "dataset"

/-- Embeds `load_dataset_from_files`: derive the path and output tables
from the keyword arguments, raise when no input path was given, infer
the name when absent, and build either a `LazyDataset` or an eagerly
loaded `Dataset` (each series is `list(create_dataset_series(...))`). -/
def load_dataset_from_files {β : Type} (fs : FS β) (name : Option String) (lazy : Bool)
    (preprocessor : β → β) (kwargs : List (String × String)) :
    Except PyError (Dataset β ⊕ LazyDataset β) :=
  let series_paths := _get_series_paths kwargs
  let series_outputs := _get_series_outputs kwargs
  if series_paths.length = 0 then Except.error PyError.noInputSeries
  else
    let nm := match name with
      | some n => n
      | Option.none => _get_name_from_paths series_paths
    if lazy then
      match LazyDataset.make nm series_paths series_outputs preprocessor with
      | Except.ok ld => Except.ok (Sum.inr ld)
      | Except.error e => Except.error e
    else
      match series_paths.mapM (fun p =>
          (create_dataset_series fs p.2 preprocessor).map
            (fun xs => (p.1, SeriesValue.list xs))) with
      | Except.error e => Except.error e
      | Except.ok series =>
        match Dataset.make nm series series_outputs with
        | Except.ok d => Except.ok (Sum.inl d)
        | Except.error e => Except.error e

/-- Follows the spec's words for batching, for comparison with
`batch_serie`: consecutive non-overlapping chunks of `k` items, the
final chunk holding the (never empty) remainder. -/
def chunksSpec {β : Type} (k : Nat) (xs : List β) : List (List β) :=
  if h : k = 0 || xs.isEmpty then [] else xs.take k :: chunksSpec k (xs.drop k)
termination_by xs.length
decreasing_by
  simp only [Bool.or_eq_true, not_or, List.isEmpty_iff, decide_eq_true_eq] at h
  exact List.length_drop k xs ▸
    Nat.sub_lt (List.length_pos.mpr h.2) (Nat.pos_of_ne_zero h.1)

/-- A one-file file system holding a numeric (`application/octet-stream`)
file with two records, used to exercise the numeric branch. -/
def numericFS : FS String :=
  fun _ => { mime := "application/octet-stream", lines := [], records := ["r0", "r1"] }

/-! ## Helper lemmas -/

/-- The length list computed by `_check_series_lengths` is the length of
the contents of exactly the list/array-valued series, in order. -/
theorem lengthsFilterMap_eq {β : Type} (series : List (String × SeriesValue β)) :
    series.filterMap (fun sv =>
      match sv.2 with
      | SeriesValue.list xs => some xs.length
      | SeriesValue.ndarray xs => some xs.length
      | _ => Option.none) =
    (series.filter (fun sv => sv.2.isListOrArray)).map
      (fun sv => sv.2.contents.length) := by
  induction series with
  | nil => rfl
  | cons sv rest ih =>
    obtain ⟨k, v⟩ := sv
    cases v <;>
      simp [List.filterMap_cons, List.filter_cons, SeriesValue.isListOrArray,
        SeriesValue.contents, ih]

/-- When at most one series value is a list or array, the length check
passes. -/
theorem check_ok_of_few_list_series {β : Type} (series : List (String × SeriesValue β))
    (h : (series.filter (fun sv => sv.2.isListOrArray)).length ≤ 1) :
    _check_series_lengths series = Except.ok () := by
  unfold _check_series_lengths
  rw [lengthsFilterMap_eq]
  have hlen : ((series.filter (fun sv => sv.2.isListOrArray)).map
      (fun sv => sv.2.contents.length)).dedup.length ≤ 1 := by
    refine le_trans (List.Sublist.length_le (List.dedup_sublist _)) ?_
    simpa using h
  rw [if_neg (by omega)]

/-- `mapM` over `Except` succeeds pointwise. -/
theorem mapM_except_ok {α γ ε : Type} (f : α → Except ε γ) (g : α → γ) (l : List α)
    (h : ∀ x ∈ l, f x = Except.ok (g x)) : l.mapM f = Except.ok (l.map g) := by
  induction l with
  | nil => rfl
  | cons a l ih =>
    rw [List.mapM_cons, h a (by simp), ih (fun x hx => h x (by simp [hx]))]
    rfl

theorem chunksSpec_nil {β : Type} (k : Nat) : chunksSpec k ([] : List β) = [] := by
  unfold chunksSpec
  simp

theorem chunksSpec_ne {β : Type} (k : Nat) (hk : 0 < k) (xs : List β) (hx : xs ≠ []) :
    chunksSpec k xs = xs.take k :: chunksSpec k (xs.drop k) := by
  have h2 : xs.isEmpty = false := by
    cases xs with
    | nil => exact absurd rfl hx
    | cons a l => rfl
  have hc : ¬((k = 0 || xs.isEmpty) = true) := by
    simp [h2, Nat.pos_iff_ne_zero.mp hk]
  conv_lhs => rw [chunksSpec]
  rw [dif_neg hc]

/-- The accumulator loop of `batch_serie` computes exactly the take/drop
chunking, run on the buffer prepended to the remaining input. -/
theorem batchLoop_eq_chunksSpec {β : Type} (k : Nat) (hk : 0 < k) :
    ∀ (xs buf : List β), buf.length < k →
      batchLoop k buf xs =
        if (buf ++ xs).isEmpty then [] else chunksSpec k (buf ++ xs) := by
  intro xs
  induction xs with
  | nil =>
    intro buf hbuf
    by_cases hb : buf = []
    · subst hb
      simp [batchLoop, chunksSpec_nil]
    · rw [List.append_nil]
      have h1 : batchLoop k buf [] = [buf] := by
        simp [batchLoop, hb]
      rw [h1, if_neg (by simp [hb]), chunksSpec_ne k hk buf hb,
        List.take_of_length_le (le_of_lt hbuf),
        List.drop_eq_nil_of_le (le_of_lt hbuf), chunksSpec_nil]
  | cons x xs ih =>
    intro buf hbuf
    have hcons : batchLoop k buf (x :: xs) =
        if k ≤ (buf ++ [x]).length then (buf ++ [x]) :: batchLoop k [] xs
        else batchLoop k (buf ++ [x]) xs := rfl
    have hne : ((buf ++ (x :: xs)).isEmpty) = false := by
      cases buf <;> rfl
    rw [hcons, hne]
    simp only [Bool.false_eq_true, if_false]
    by_cases hfill : k ≤ (buf ++ [x]).length
    · rw [if_pos hfill, ih [] (by simpa using hk)]
      have hlen : (buf ++ [x]).length = k := by
        simp only [List.length_append, List.length_cons, List.length_nil] at hfill ⊢
        omega
      have hsplit : buf ++ x :: xs = (buf ++ [x]) ++ xs := by simp
      have hne2 : (buf ++ [x]) ++ xs ≠ [] := by
        intro hnil
        have hl := congrArg List.length hnil
        simp at hl
      rw [hsplit, chunksSpec_ne k hk _ hne2]
      rw [List.take_left' hlen, List.drop_left' hlen, List.nil_append]
      by_cases hx : xs = []
      · subst hx
        rw [chunksSpec_nil]
        simp
      · rw [if_neg (by simp [hx])]
    · rw [if_neg hfill, ih (buf ++ [x]) (by
        simp only [List.length_append, List.length_cons, List.length_nil] at hfill ⊢
        omega)]
      have hsplit : (buf ++ [x]) ++ xs = buf ++ x :: xs := by simp
      rw [hsplit, hne]
      simp only [Bool.false_eq_true, if_false]

theorem chunksSpec_join {β : Type} (k : Nat) (hk : 0 < k) (n : Nat) :
    ∀ xs : List β, xs.length ≤ n → (chunksSpec k xs).flatten = xs := by
  induction n with
  | zero =>
    intro xs h
    have hx : xs = [] := List.eq_nil_of_length_eq_zero (Nat.le_zero.mp h)
    subst hx
    rw [chunksSpec_nil]
    rfl
  | succ n ih =>
    intro xs h
    by_cases hx : xs = []
    · subst hx
      rw [chunksSpec_nil]
      rfl
    · rw [chunksSpec_ne k hk xs hx, List.flatten_cons]
      rw [ih (xs.drop k) (by
        rw [List.length_drop]
        have := List.length_pos.mpr hx
        omega)]
      exact List.take_append_drop k xs

theorem chunksSpec_length {β : Type} (k : Nat) (hk : 0 < k) (n : Nat) :
    ∀ xs : List β, xs.length ≤ n →
      (chunksSpec k xs).length = (xs.length + k - 1) / k := by
  induction n with
  | zero =>
    intro xs h
    have hx : xs = [] := List.eq_nil_of_length_eq_zero (Nat.le_zero.mp h)
    subst hx
    rw [chunksSpec_nil]
    simp [Nat.div_eq_of_lt (by omega : k - 1 < k)]
  | succ n ih =>
    intro xs h
    by_cases hx : xs = []
    · subst hx
      rw [chunksSpec_nil]
      simp [Nat.div_eq_of_lt (by omega : k - 1 < k)]
    · have hpos := List.length_pos.mpr hx
      rw [chunksSpec_ne k hk xs hx, List.length_cons,
        ih (xs.drop k) (by rw [List.length_drop]; omega), List.length_drop]
      rcases le_or_lt k xs.length with hle | hlt
      · have h1 : xs.length - k + k - 1 = xs.length - 1 := by omega
        have h2 : xs.length + k - 1 = (xs.length - 1) + k := by omega
        rw [h1, h2, Nat.add_div_right _ hk]
      · have h1 : xs.length - k = 0 := by omega
        rw [h1]
        have h2 : (k - 1) / k = 0 := Nat.div_eq_of_lt (by omega)
        rw [Nat.zero_add, h2]
        exact (Nat.div_eq_of_lt_le (by omega) (by omega)).symm

theorem chunksSpec_mem {β : Type} (k : Nat) (hk : 0 < k) (n : Nat) :
    ∀ xs : List β, xs.length ≤ n →
      ∀ c ∈ chunksSpec k xs, 1 ≤ c.length ∧ c.length ≤ k := by
  induction n with
  | zero =>
    intro xs h c hc
    have hx : xs = [] := List.eq_nil_of_length_eq_zero (Nat.le_zero.mp h)
    subst hx
    rw [chunksSpec_nil] at hc
    exact absurd hc (List.not_mem_nil c)
  | succ n ih =>
    intro xs h c hc
    by_cases hx : xs = []
    · subst hx
      rw [chunksSpec_nil] at hc
      exact absurd hc (List.not_mem_nil c)
    · rw [chunksSpec_ne k hk xs hx] at hc
      have hpos := List.length_pos.mpr hx
      rcases List.mem_cons.mp hc with rfl | hmem
      · rw [List.length_take]
        exact ⟨le_min hk hpos, min_le_left _ _⟩
      · exact ih (xs.drop k) (by rw [List.length_drop]; omega) c hmem

theorem chunksSpec_full {β : Type} (k : Nat) (hk : 0 < k) (n : Nat) :
    ∀ xs : List β, xs.length ≤ n → ∀ i c, i + 1 < (chunksSpec k xs).length →
      (chunksSpec k xs).get? i = some c → c.length = k := by
  induction n with
  | zero =>
    intro xs h i c hi
    have hx : xs = [] := List.eq_nil_of_length_eq_zero (Nat.le_zero.mp h)
    subst hx
    rw [chunksSpec_nil] at hi
    exact absurd hi (by simp)
  | succ n ih =>
    intro xs h i c hi hget
    by_cases hx : xs = []
    · subst hx
      rw [chunksSpec_nil] at hi
      exact absurd hi (by simp)
    · rw [chunksSpec_ne k hk xs hx] at hi hget
      have hpos := List.length_pos.mpr hx
      have hdrop : (xs.drop k).length ≤ n := by rw [List.length_drop]; omega
      cases i with
      | zero =>
        have hc : c = xs.take k := by
          simpa using hget.symm
        subst hc
        have hrest : chunksSpec k (xs.drop k) ≠ [] := by
          intro hnil
          rw [List.length_cons, hnil] at hi
          exact absurd hi (by simp)
        have hdx : xs.drop k ≠ [] := by
          intro hdn
          exact hrest (hdn ▸ chunksSpec_nil k)
        have hklt : k < xs.length := by
          by_contra hge
          exact hdx (List.drop_eq_nil_of_le (by omega))
        rw [List.length_take]
        omega
      | succ i =>
        rw [List.length_cons] at hi
        exact ih (xs.drop k) hdrop i c (by omega) (by simpa using hget)

/-- When `findLastOut` matches, the input decomposes around `"_out"`. -/
theorem findLastOut_some_exists :
    ∀ cs n : List Char, findLastOut cs = some n →
      ∃ suf, cs = n ++ outChars ++ suf := by
  intro cs
  induction cs with
  | nil =>
    intro n h
    exact absurd h (by simp [findLastOut])
  | cons c cs ih =>
    intro n h
    cases hfl : findLastOut cs with
    | some m =>
      simp only [findLastOut, hfl] at h
      obtain ⟨suf, hsuf⟩ := ih m hfl
      exact ⟨suf, by rw [← Option.some.inj h, hsuf]; rfl⟩
    | none =>
      simp only [findLastOut, hfl] at h
      by_cases hpre : outChars.isPrefixOf (c :: cs)
      · rw [if_pos hpre] at h
        obtain ⟨suf, hsuf⟩ := List.isPrefixOf_iff_prefix.mp hpre
        refine ⟨suf, ?_⟩
        rw [← Option.some.inj h]
        simpa using hsuf.symm
      · rw [if_neg hpre] at h
        exact absurd h (by simp)

/-- `findLastOut` fails exactly when no `"_out"` decomposition exists. -/
theorem findLastOut_none :
    ∀ cs : List Char, findLastOut cs = Option.none ↔
      ∀ n suf : List Char, cs ≠ n ++ outChars ++ suf := by
  intro cs
  induction cs with
  | nil =>
    constructor
    · intro _ n suf h
      have hl := congrArg List.length h
      simp [outChars] at hl
      omega
    · intro _
      rfl
  | cons c cs ih =>
    cases hfl : findLastOut cs with
    | some m =>
      simp only [findLastOut, hfl]
      constructor
      · intro h
        exact absurd h (by simp)
      · intro hall
        exfalso
        obtain ⟨suf, hsuf⟩ := findLastOut_some_exists cs m hfl
        exact hall (c :: m) suf (by rw [hsuf]; rfl)
    | none =>
      simp only [findLastOut, hfl]
      by_cases hpre : outChars.isPrefixOf (c :: cs)
      · rw [if_pos hpre]
        constructor
        · intro h
          exact absurd h (by simp)
        · intro hall
          exfalso
          obtain ⟨suf, hsuf⟩ := List.isPrefixOf_iff_prefix.mp hpre
          exact hall [] suf (by simpa using hsuf.symm)
      · rw [if_neg hpre]
        constructor
        · intro _ n suf heq
          cases n with
          | nil =>
            exact hpre ( List.isPrefixOf_iff_prefix.mpr
              ⟨suf, by simpa using heq.symm⟩)
          | cons a n2 =>
            have hcs : cs = n2 ++ outChars ++ suf := by
              simp only [List.cons_append] at heq
              exact (List.cons.inj heq).2
            exact (ih.mp hfl) n2 suf hcs
        · intro _
          rfl

/-- The group captured by `findLastOut` is the longest one (greediness
of `(.*)`). -/
theorem findLastOut_max :
    ∀ cs n : List Char, findLastOut cs = some n →
      ∀ m suf : List Char, cs = m ++ outChars ++ suf → m.length ≤ n.length := by
  intro cs
  induction cs with
  | nil =>
    intro n h
    exact absurd h (by simp [findLastOut])
  | cons c cs ih =>
    intro n h m suf heq
    cases hfl : findLastOut cs with
    | some p =>
      simp only [findLastOut, hfl] at h
      have hn : n = c :: p := (Option.some.inj h).symm
      cases m with
      | nil => simp
      | cons a m2 =>
        have hcs : cs = m2 ++ outChars ++ suf := by
          simp only [List.cons_append] at heq
          exact (List.cons.inj heq).2
        have := ih p hfl m2 suf hcs
        simp only [hn, List.length_cons]
        omega
    | none =>
      simp only [findLastOut, hfl] at h
      by_cases hpre : outChars.isPrefixOf (c :: cs)
      · rw [if_pos hpre] at h
        cases m with
        | nil => simp
        | cons a m2 =>
          exfalso
          have hcs : cs = m2 ++ outChars ++ suf := by
            simp only [List.cons_append] at heq
            exact (List.cons.inj heq).2
          exact (findLastOut_none cs).mp hfl m2 suf hcs
      · rw [if_neg hpre] at h
        exact absurd h (by simp)

/-- `findLastOut` succeeds whenever some `"_out"` decomposition exists. -/
theorem findLastOut_complete (cs m suf : List Char)
    (heq : cs = m ++ outChars ++ suf) : ∃ n, findLastOut cs = some n := by
  cases hfl : findLastOut cs with
  | some n => exact ⟨n, rfl⟩
  | none => exact absurd heq ((findLastOut_none cs).mp hfl m suf)

theorem tail_get? {α : Type} (c : List α) (i : Nat) :
    c.tail.get? i = c.get? (i + 1) := by
  cases c <;> rfl

/-- `filterMap` over a function that never fails indexes like `map`. -/
theorem filterMap_get?_all {α γ : Type} (f : α → Option γ) (l : List α)
    (h : ∀ x ∈ l, (f x).isSome) :
    ∀ i, (l.filterMap f).get? i = (l.get? i).bind f := by
  induction l with
  | nil => intro i; rfl
  | cons a l ih =>
    intro i
    obtain ⟨b, hb⟩ := Option.isSome_iff_exists.mp (h a (by simp))
    rw [List.filterMap_cons_some hb]
    cases i with
    | zero => simp [hb]
    | succ i => simpa using ih (fun x hx => h x (by simp [hx])) i

/-- `filterMap` over a function that never fails preserves length. -/
theorem filterMap_length_all {α γ : Type} (f : α → Option γ) (l : List α)
    (h : ∀ x ∈ l, (f x).isSome) : (l.filterMap f).length = l.length := by
  induction l with
  | nil => rfl
  | cons a l ih =>
    obtain ⟨b, hb⟩ := Option.isSome_iff_exists.mp (h a (by simp))
    rw [List.filterMap_cons_some hb, List.length_cons, List.length_cons,
      ih (fun x hx => h x (by simp [hx]))]

theorem zip_get? {α γ : Type} :
    ∀ (l₁ : List α) (l₂ : List γ) (i : Nat),
      (l₁.zip l₂).get? i =
        (l₁.get? i).bind (fun a => (l₂.get? i).map (fun b => (a, b))) := by
  intro l₁
  induction l₁ with
  | nil => intro l₂ i; cases l₂ <;> cases i <;> rfl
  | cons a l₁ ih =>
    intro l₂ i
    cases l₂ with
    | nil =>
      rw [List.zip_nil_right]
      cases h : (a :: l₁).get? i <;> simp [h]
    | cons b l₂ =>
      cases i with
      | zero => rfl
      | succ i => simpa using ih l₂ i

theorem pyZip_nil {α : Type} : pyZip ([] : List (List α)) = [] := by
  rw [pyZip]
  rfl

/-- When every row has length `L` (and there is at least one row),
`pyZip` is the transpose: row `i` collects entry `i` of every input
row, for `i < L`. -/
theorem pyZip_get? {α : Type} :
    ∀ (L : Nat) (cols : List (List α)), cols ≠ [] →
      (∀ c ∈ cols, c.length = L) → ∀ i,
        (pyZip cols).get? i =
          if i < L then some (cols.filterMap (fun c => c.get? i))
          else Option.none := by
  intro L
  induction L with
  | zero =>
    intro cols hne hlen i
    obtain ⟨c, hc⟩ := List.exists_mem_of_ne_nil cols hne
    have hany : cols.any List.isEmpty = true :=
      List.any_eq_true.mpr ⟨c, hc, by
        simp [List.isEmpty_iff, List.length_eq_zero.mp (hlen c hc)]⟩
    rw [pyZip, dif_pos (by simp [hany])]
    simp
  | succ L ih =>
    intro cols hne hlen i
    have hnone : cols.any List.isEmpty = false := by
      rw [List.any_eq_false]
      intro c hc
      simp [List.isEmpty_iff]
      intro hcn
      have := hlen c hc
      rw [hcn] at this
      simp at this
    have hie : cols.isEmpty = false := by
      cases cols with
      | nil => exact absurd rfl hne
      | cons a l => rfl
    rw [pyZip, dif_neg (by simp [hnone, hie])]
    cases i with
    | zero =>
      rw [if_pos (Nat.succ_pos L)]
      simp only [List.get?]
      congr 1
      refine List.filterMap_congr ?_
      intro c _
      cases c <;> rfl
    | succ i =>
      have htne : cols.map List.tail ≠ [] := by
        cases cols with
        | nil => exact absurd rfl hne
        | cons a l => simp
      have htlen : ∀ c ∈ cols.map List.tail, c.length = L := by
        intro c hc
        obtain ⟨c0, hc0, rfl⟩ := List.mem_map.mp hc
        rw [List.length_tail, hlen c0 hc0]
        omega
      have := ih (cols.map List.tail) htne htlen i
      simp only [List.get?]
      rw [this]
      by_cases hi : i < L
      · rw [if_pos hi, if_pos (by omega)]
        rw [List.filterMap_map]
        congr 1
        refine List.filterMap_congr ?_
        intro c _
        exact tail_get? c i
      · rw [if_neg hi, if_neg (by omega)]

theorem pyZip_length {α : Type} :
    ∀ (L : Nat) (cols : List (List α)), cols ≠ [] →
      (∀ c ∈ cols, c.length = L) → (pyZip cols).length = L := by
  intro L
  induction L with
  | zero =>
    intro cols hne hlen
    obtain ⟨c, hc⟩ := List.exists_mem_of_ne_nil cols hne
    have hany : cols.any List.isEmpty = true :=
      List.any_eq_true.mpr ⟨c, hc, by
        simp [List.isEmpty_iff, List.length_eq_zero.mp (hlen c hc)]⟩
    rw [pyZip, dif_pos (by simp [hany])]
    rfl
  | succ L ih =>
    intro cols hne hlen
    have hnone : cols.any List.isEmpty = false := by
      rw [List.any_eq_false]
      intro c hc
      simp [List.isEmpty_iff]
      intro hcn
      have := hlen c hc
      rw [hcn] at this
      simp at this
    have hie : cols.isEmpty = false := by
      cases cols with
      | nil => exact absurd rfl hne
      | cons a l => rfl
    rw [pyZip, dif_neg (by simp [hnone, hie])]
    have htne : cols.map List.tail ≠ [] := by
      cases cols with
      | nil => exact absurd rfl hne
      | cons a l => simp
    have htlen : ∀ c ∈ cols.map List.tail, c.length = L := by
      intro c hc
      obtain ⟨c0, hc0, rfl⟩ := List.mem_map.mp hc
      rw [List.length_tail, hlen c0 hc0]
      omega
    rw [List.length_cons, ih (cols.map List.tail) htne htlen]

/-! ## Claim theorems -/

/-- Claim C1: creating a series from a path classified as
`application/octet-stream` should decode the entire file into its
records.  In the code `create_dataset_series` is a generator and its
numeric branch executes `return np.load(path)`, which terminates the
generator without yielding anything, so the materialized series is
empty even though the file holds records. -/
theorem numeric_series_materializes_empty :
    create_dataset_series numericFS "data.npy" id = Except.ok [] ∧
      (numericFS "data.npy").records = ["r0", "r1"] ∧
      Except.ok ((numericFS "data.npy").records) ≠
        (create_dataset_series numericFS "data.npy" id) := by
  refine ⟨rfl, rfl, fun h => ?_⟩
  have h2 : (["r0", "r1"] : List String) = [] := Except.ok.inj h
  exact absurd h2 (by simp)

/-- Claim C2, counterexample: `Dataset(name="x", series={})` does *not*
fail — `_check_series_lengths` sees no lengths and returns, so a
Dataset object is produced. -/
theorem empty_series_dataset_constructs :
    Dataset.make "x" ([] : List (String × SeriesValue String)) [] =
      Except.ok ⟨"x", [], []⟩ := rfl

/-- Claim C2 as amended: constructing an eager `Dataset` with an empty
series mapping succeeds and the resulting dataset has size 0; the
`NoInputSeries` failure is raised by `load_dataset_from_files` when the
keyword arguments yield no series path, before any dataset is built. -/
theorem noInputSeries_raised_only_by_loader {β : Type} (name : String)
    (outs : List (String × String)) (fs : FS β) (nm : Option String) (lazy : Bool)
    (pre : β → β) (kwargs : List (String × String))
    (hempty : _get_series_paths kwargs = []) :
    Dataset.make name ([] : List (String × SeriesValue β)) outs =
        Except.ok ⟨name, [], outs⟩ ∧
      Dataset.size (⟨name, [], outs⟩ : Dataset β) = Except.ok 0 ∧
      load_dataset_from_files fs nm lazy pre kwargs =
        Except.error PyError.noInputSeries := by
  refine ⟨rfl, rfl, ?_⟩
  simp [load_dataset_from_files, hempty]

/-- Witness for `noInputSeries_raised_only_by_loader`, at a keyword set
whose only key matches neither series pattern. -/
theorem noInputSeries_witness :
    _get_series_paths [("foo", "p")] = [] ∧
      (Dataset.make "x" ([] : List (String × SeriesValue String)) [] =
          Except.ok ⟨"x", [], []⟩ ∧
        Dataset.size (⟨"x", [], []⟩ : Dataset String) = Except.ok 0 ∧
        load_dataset_from_files (fun _ => (⟨"text/plain", [], []⟩ : FileRepr String))
            Option.none false id [("foo", "p")] = Except.error PyError.noInputSeries) :=
  ⟨rfl, noInputSeries_raised_only_by_loader "x" []
    (fun _ => (⟨"text/plain", [], []⟩ : FileRepr String))
    Option.none false id [("foo", "p")] rfl⟩

/-- Claim C5, counterexample: with list series of lengths 3 and 5 *and*
a `None`-valued series present, construction fails, but with a
`TypeError` raised while formatting the report (`len(list(None))`), not
with the `LengthMismatch` report of every series name and length. -/
theorem length_mismatch_report_breaks_on_none :
    Dataset.make "d"
        [("a", SeriesValue.list ["x", "y", "z"]),
         ("b", SeriesValue.list ["1", "2", "3", "4", "5"]),
         ("c", (SeriesValue.none : SeriesValue String))] [] =
      Except.error PyError.typeError := rfl

/-- Claim C5 as amended: for a non-empty series mapping in which every
value is a list or array, if more than one distinct length occurs then
construction fails with `LengthMismatch` whose report pairs every series
name with its length, and no dataset is produced. -/
theorem length_mismatch_reported_for_list_series {β : Type} (name : String)
    (series : List (String × SeriesValue β)) (outs : List (String × String))
    (hvals : ∀ sv ∈ series, sv.2.isListOrArray = true)
    (hmis : 1 < ((series.map (fun sv => sv.2.contents.length)).dedup.length)) :
    Dataset.make name series outs =
      Except.error (PyError.lengthMismatch
        (series.map (fun sv => (sv.1, sv.2.contents.length)))) := by
  unfold Dataset.make _check_series_lengths
  rw [lengthsFilterMap_eq, List.filter_eq_self.mpr hvals, if_pos hmis,
    mapM_except_ok _ (fun sv => (sv.1, sv.2.contents.length))]
  intro sv hsv
  have := hvals sv hsv
  match sv, this with
  | (k, SeriesValue.list xs), _ => rfl
  | (k, SeriesValue.ndarray xs), _ => rfl

/-- Witness for `length_mismatch_reported_for_list_series` at series of
lengths 3 and 5. -/
theorem length_mismatch_witness :
    (∀ sv ∈ [("a", SeriesValue.list ["x", "y", "z"]),
        ("b", SeriesValue.list ["1", "2", "3", "4", "5"])],
      sv.2.isListOrArray = true) ∧
    1 < (([("a", SeriesValue.list ["x", "y", "z"]),
        ("b", SeriesValue.list ["1", "2", "3", "4", "5"])].map
          (fun sv => sv.2.contents.length)).dedup.length) ∧
    Dataset.make "d"
        [("a", SeriesValue.list ["x", "y", "z"]),
         ("b", SeriesValue.list ["1", "2", "3", "4", "5"])] [] =
      Except.error (PyError.lengthMismatch [("a", 3), ("b", 5)]) :=
  ⟨by decide, by decide,
    length_mismatch_reported_for_list_series "d" _ [] (by decide) (by decide)⟩

/-- Claim C6: `LazyDataset.__len__` raises `SizeUnknown` on every call,
for every lazy dataset, and never returns a number. -/
theorem lazy_size_always_sizeUnknown {β : Type} (ld : LazyDataset β) :
    LazyDataset.size ld = Except.error PyError.sizeUnknown ∧
      ∀ n : Nat, LazyDataset.size ld ≠ Except.ok n :=
  ⟨rfl, fun n h => Except.noConfusion h⟩

/-- Claim C7: two successive `LazyDataset.get_series` calls on the same
(unchanged) file system both return the full preprocessed line sequence
of the underlying text file, decoded from its beginning; no cursor state
is shared, since each call builds the series afresh from the path. -/
theorem lazy_get_series_restartable {β : Type} (fs : FS β) (ld : LazyDataset β)
    (nm path : String) (hpath : dictGetPath ld.series_paths nm = Except.ok path)
    (htext : ("text/".data).isPrefixOf (fs path).mime.data = true) :
    LazyDataset.get_series fs ld nm false =
        Except.ok (some ((fs path).lines.map ld.preprocess)) ∧
      LazyDataset.get_series fs ld nm false = LazyDataset.get_series fs ld nm false := by
  refine ⟨?_, rfl⟩
  simp [LazyDataset.get_series, hpath, create_dataset_series, htext, Except.map]

/-- Witness for `lazy_get_series_restartable` on a two-line text file. -/
theorem lazy_get_series_witness :
    dictGetPath [("src", "f.txt")] "src" = Except.ok "f.txt" ∧
      LazyDataset.get_series (fun _ => ⟨"text/plain", ["l1", "l2"], []⟩)
          ⟨"d", [("src", SeriesValue.none)], [], [("src", "f.txt")], id⟩ "src" false =
        Except.ok (some ((["l1", "l2"] : List String).map id)) :=
  ⟨rfl, (lazy_get_series_restartable (fun _ => ⟨"text/plain", ["l1", "l2"], []⟩)
    ⟨"d", [("src", SeriesValue.none)], [], [("src", "f.txt")], id⟩ "src" "f.txt"
    rfl rfl).1⟩

/-- Claim C9: `LazyDataset.shuffle` is a no-op — the dataset and all its
fields (name, paths, outputs, preprocessor) are unchanged. -/
theorem lazy_shuffle_noop {β : Type} (ld : LazyDataset β) :
    LazyDataset.shuffle ld = ld ∧
      (LazyDataset.shuffle ld).name = ld.name ∧
      (LazyDataset.shuffle ld).series_paths = ld.series_paths ∧
      (LazyDataset.shuffle ld).series_outputs = ld.series_outputs ∧
      (LazyDataset.shuffle ld).preprocess = ld.preprocess :=
  ⟨rfl, rfl, rfl, rfl, rfl⟩

/-- Claim C10: the eager length validation inspects only list/array
values — whenever at most one series value is a list or array,
construction succeeds outright (so it cannot raise `LengthMismatch`);
in particular `LazyDataset.__init__`'s all-`None` series mapping passes
the eager constructor unchecked. -/
theorem length_check_ignores_non_list_values {β : Type} (name : String)
    (series : List (String × SeriesValue β)) (outs : List (String × String))
    (h : (series.filter (fun sv => sv.2.isListOrArray)).length ≤ 1) :
    Dataset.make name series outs = Except.ok ⟨name, series, outs⟩ ∧
      ∀ (paths : List (String × String)) (pre : β → β),
        LazyDataset.make name paths outs pre =
          Except.ok ⟨name, paths.map (fun p => (p.1, SeriesValue.none)), outs, paths, pre⟩ := by
  constructor
  · unfold Dataset.make
    rw [check_ok_of_few_list_series series h]
  · intro paths pre
    unfold LazyDataset.make Dataset.make
    have hz : (paths.map (fun p => (p.1, (SeriesValue.none : SeriesValue β)))).filter
        (fun sv => sv.2.isListOrArray) = [] := by
      rw [List.filter_eq_nil_iff]
      intro a ha
      obtain ⟨p, hp, rfl⟩ := List.mem_map.mp ha
      simp [SeriesValue.isListOrArray]
    rw [check_ok_of_few_list_series _ (by simp [hz])]

/-- Claim C3: for a series of length `L` and batch size `k > 0`,
`batch_serie` yields exactly `ceil(L/k)` chunks; every chunk has between
1 and `k` items (no chunk is empty); every chunk except possibly the
last has exactly `k` items; an empty series yields no chunks; and the
concatenation of the chunks in order is the original series.  Moreover
the loop agrees with the take/drop chunking `chunksSpec` written from
the spec's words. -/
theorem batch_serie_chunk_properties {β : Type} (xs : List β) (k : Nat) (hk : 0 < k) :
    (batch_serie xs k).length = (xs.length + k - 1) / k ∧
      (∀ c ∈ batch_serie xs k, 1 ≤ c.length ∧ c.length ≤ k) ∧
      (∀ i c, i + 1 < (batch_serie xs k).length →
        (batch_serie xs k).get? i = some c → c.length = k) ∧
      (batch_serie xs k).flatten = xs ∧
      (xs = [] → batch_serie xs k = []) ∧
      batch_serie xs k = chunksSpec k xs := by
  have heq : batch_serie xs k = chunksSpec k xs := by
    unfold batch_serie
    rw [batchLoop_eq_chunksSpec k hk xs [] (by simpa using hk), List.nil_append]
    by_cases hx : xs = []
    · subst hx
      rw [chunksSpec_nil]
      simp
    · rw [if_neg (by simp [hx])]
  rw [heq]
  exact ⟨chunksSpec_length k hk xs.length xs le_rfl,
    chunksSpec_mem k hk xs.length xs le_rfl,
    fun i c => chunksSpec_full k hk xs.length xs le_rfl i c,
    chunksSpec_join k hk xs.length xs le_rfl,
    fun hx => by rw [hx, chunksSpec_nil],
    rfl⟩

/-- Witness for `batch_serie_chunk_properties` at a series of length 3
and batch size 2: two chunks whose concatenation is the series. -/
theorem batch_serie_witness :
    0 < 2 ∧ (batch_serie ["a", "b", "c"] 2).length = (3 + 2 - 1) / 2 ∧
      (batch_serie ["a", "b", "c"] 2).flatten = ["a", "b", "c"] :=
  ⟨by decide,
    by
      have h := batch_serie_chunk_properties ["a", "b", "c"] 2 (by decide)
      simpa using h.1,
    (batch_serie_chunk_properties ["a", "b", "c"] 2 (by decide)).2.2.2.1⟩

/-- Witness for `length_check_ignores_non_list_values`: one list series
of length 2 next to a `None` and a lazy dataset over two paths. -/
theorem length_check_witness :
    (([("a", SeriesValue.list ["x", "y"]), ("b", (SeriesValue.none : SeriesValue String))].filter
        (fun sv => sv.2.isListOrArray)).length ≤ 1) ∧
      Dataset.make "d" [("a", SeriesValue.list ["x", "y"]),
          ("b", (SeriesValue.none : SeriesValue String))] [] =
        Except.ok ⟨"d", [("a", SeriesValue.list ["x", "y"]), ("b", SeriesValue.none)], []⟩ ∧
      LazyDataset.make "d" [("a", "pa"), ("b", "pb")] [] (id : String → String) =
        Except.ok ⟨"d", [("a", SeriesValue.none), ("b", SeriesValue.none)], [],
          [("a", "pa"), ("b", "pb")], id⟩ := by
  have h := length_check_ignores_non_list_values (β := String) "d"
    [("a", SeriesValue.list ["x", "y"]), ("b", SeriesValue.none)] [] (by decide)
  exact ⟨by decide, h.1, h.2 [("a", "pa"), ("b", "pb")] id⟩

/-- Claim C8, counterexample: the key `"s_tgt_output"` is of neither
claimed form — it is not `s_<series>` (the remainder contains the
separator, and indeed it yields no input path) and not `s_<series>_out`
(it does not end in `"_out"`) — yet, because `SERIES_OUTPUT` has no end
anchor, it yields the output path binding `("tgt", "p")` instead of
being ignored. -/
theorem output_key_not_anchored :
    _get_series_outputs [("s_tgt_output", "p")] = [("tgt", "p")] ∧
      _get_series_paths [("s_tgt_output", "p")] = [] ∧
      ∀ n : List Char, "s_tgt_output".data ≠ 's' :: '_' :: (n ++ outChars) := by
  refine ⟨by decide, by decide, ?_⟩
  intro n h
  have hd : ("s_tgt_output".data) =
      ['s', '_', 't', 'g', 't', '_', 'o', 'u', 't', 'p', 'u', 't'] := by decide
  rw [hd] at h
  have h1 : (['t', 'g', 't', '_', 'o', 'u', 't', 'p', 'u', 't'] : List Char) =
      n ++ outChars := by
    have := (List.cons.inj h).2
    exact (List.cons.inj this).2
  have hlen := congrArg List.length h1
  simp [outChars] at hlen
  have h3 : (['t', 'g', 't', '_', 'o', 'u'] : List Char) ++ ['t', 'p', 'u', 't'] =
      n ++ outChars := by simpa using h1
  have h4 := (List.append_inj h3 (by simp [hlen])).2
  simp [outChars] at h4

/-- Claim C8 as amended: a key of the form `s_<series>` with no
separator in `<series>` denotes the input path for `<series>`; a key
*beginning* with `s_<series>_out` — arbitrary text may follow, since the
`SERIES_OUTPUT` pattern has no end anchor, and `<series>` is the longest
group making this a prefix — denotes the output path for `<series>`;
every other key contributes neither an input nor an output path. -/
theorem series_key_convention :
    (∀ k n : List Char, seriesSourceMatch k = some n ↔
      (k = 's' :: '_' :: n ∧ '_' ∉ n)) ∧
      (∀ k n : List Char, seriesOutputMatch k = some n ↔
        ((∃ suf, k = 's' :: '_' :: (n ++ outChars ++ suf)) ∧
          ∀ m suf, k = 's' :: '_' :: (m ++ outChars ++ suf) →
            m.length ≤ n.length)) ∧
      (∀ (key v : String) (rest : List (String × String)),
        _get_series_paths ((key, v) :: rest) =
          (match seriesSourceMatch key.data with
           | some n => (String.mk n, v) :: _get_series_paths rest
           | Option.none => _get_series_paths rest) ∧
        _get_series_outputs ((key, v) :: rest) =
          (match seriesOutputMatch key.data with
           | some n => (String.mk n, v) :: _get_series_outputs rest
           | Option.none => _get_series_outputs rest)) := by
  refine ⟨?_, ?_, ?_⟩
  · intro k n
    constructor
    · intro h
      match k with
      | [] => exact absurd h (by simp [seriesSourceMatch])
      | [c1] => exact absurd h (by simp [seriesSourceMatch])
      | c1 :: c2 :: rest =>
        simp only [seriesSourceMatch] at h
        by_cases hc : c1 = 's' ∧ c2 = '_' ∧ rest.all (fun c => c != '_')
        · rw [if_pos hc] at h
          obtain ⟨hc1, hc2, hall⟩ := hc
          have hrn : rest = n := Option.some.inj h
          subst hrn
          refine ⟨by rw [hc1, hc2], ?_⟩
          intro hmem
          have := List.all_eq_true.mp hall '_' hmem
          simp at this
        · rw [if_neg hc] at h
          exact absurd h (by simp)
    · rintro ⟨hk, hmem⟩
      subst hk
      have hall : n.all (fun c => c != '_') = true :=
        List.all_eq_true.mpr (fun c hc => by
          simp only [bne_iff_ne, ne_eq, decide_eq_true_eq]
          intro hce
          exact hmem (hce ▸ hc))
      simp [seriesSourceMatch, hall]
  · intro k n
    constructor
    · intro h
      match k with
      | [] => exact absurd h (by simp [seriesOutputMatch])
      | [c1] => exact absurd h (by simp [seriesOutputMatch])
      | c1 :: c2 :: rest =>
        simp only [seriesOutputMatch] at h
        by_cases hc : c1 = 's' ∧ c2 = '_'
        · rw [if_pos hc] at h
          obtain ⟨hc1, hc2⟩ := hc
          subst hc1
          subst hc2
          constructor
          · obtain ⟨suf, hsuf⟩ := findLastOut_some_exists rest n h
            exact ⟨suf, by rw [hsuf]⟩
          · intro m suf heq
            have hrest : rest = m ++ outChars ++ suf := by
              have := (List.cons.inj heq).2
              exact (List.cons.inj this).2
            exact findLastOut_max rest n h m suf hrest
        · rw [if_neg hc] at h
          exact absurd h (by simp)
    · rintro ⟨⟨suf, hsuf⟩, hmax⟩
      subst hsuf
      suffices hgoal : findLastOut (n ++ outChars ++ suf) = some n by
        simpa [seriesOutputMatch] using hgoal
      obtain ⟨p, hp⟩ := findLastOut_complete (n ++ outChars ++ suf) n suf rfl
      rw [hp]
      obtain ⟨suf2, hsuf2⟩ := findLastOut_some_exists _ p hp
      have hple : p.length ≤ n.length := hmax p suf2 (by rw [hsuf2])
      have hnle : n.length ≤ p.length := findLastOut_max _ p hp n suf rfl
      have hout : n ++ outChars = p ++ outChars :=
        (List.append_inj hsuf2 (by simp [le_antisymm hnle hple])).1
      have hnp : n = p := (List.append_inj hout (le_antisymm hnle hple)).1
      rw [hnp]
  · intro key v rest
    constructor
    · simp only [_get_series_paths, List.filterMap_cons]
      cases seriesSourceMatch key.data <;> rfl
    · simp only [_get_series_outputs, List.filterMap_cons]
      cases seriesOutputMatch key.data <;> rfl

/-- Claim C4: on an eager dataset whose series are all lists of one
common length `L`, `shuffle` (with the RNG outcome given as the index
permutation `p`) succeeds and applies one single permutation to every
series: keys and their order are unchanged, every series still has `L`
items, and there is a bijection `pi` on `Fin L` such that for every
series `j` and every index `i` the new item at `i` equals the old item
at `pi i` — no value created, lost or duplicated, and cross-series
alignment preserved. -/
theorem shuffle_synchronized_permutation {β : Type} (d : Dataset β) (L : Nat)
    (p : List Nat)
    (hvals : ∀ sv ∈ d.series,
      ∃ xs : List β, sv.2 = SeriesValue.list xs ∧ xs.length = L)
    (hp : p.Perm (List.range L)) :
    ∃ d' : Dataset β, d.shuffle p = Except.ok d' ∧
      d'.name = d.name ∧ d'.series_outputs = d.series_outputs ∧
      d'.series.map Prod.fst = d.series.map Prod.fst ∧
      (∀ sv ∈ d'.series, sv.2.contents.length = L) ∧
      ∃ pi : Fin L → Fin L, Function.Bijective pi ∧
        ∀ (j : Nat) (i : Fin L),
          ((d'.series.get? j).map (fun sv => sv.2.contents.get? i.val)) =
            ((d.series.get? j).map (fun sv => sv.2.contents.get? (pi i).val)) := by
  have hget_isSome : ∀ {γ : Type} (c : List γ) (a : Nat),
      a < c.length → (c.get? a).isSome := by
    intro γ c a hlt
    rw [List.get?_eq_get hlt]
    rfl
  have hmapM : (d.series.map Prod.snd).mapM SeriesValue.iterate =
      Except.ok ((d.series.map Prod.snd).map SeriesValue.contents) := by
    refine mapM_except_ok _ _ _ ?_
    intro v hv
    obtain ⟨sv, hsv, rfl⟩ := List.mem_map.mp hv
    obtain ⟨xs, hxs, _⟩ := hvals sv hsv
    rw [hxs]
    rfl
  by_cases hser : d.series = []
  · -- no series: the loop over `zip(keys, ...)` does nothing
    have hres : d.shuffle p = Except.ok ⟨d.name, [], d.series_outputs⟩ := by
      unfold Dataset.shuffle
      rw [hser]
      simp [List.drop_nil]
      rfl
    refine ⟨_, hres, rfl, rfl, by rw [hser], ?_, id, Function.bijective_id, ?_⟩
    · intro sv hsv
      simp at hsv
    · intro j i
      rw [hser]
      rfl
  · obtain ⟨C, hC⟩ :
        ∃ C, (d.series.map Prod.snd).map SeriesValue.contents = C := ⟨_, rfl⟩
    rw [hC] at hmapM
    have hClen : ∀ c ∈ C, c.length = L := by
      intro c hc
      rw [← hC] at hc
      obtain ⟨v, hv, rfl⟩ := List.mem_map.mp hc
      obtain ⟨sv, hsv, rfl⟩ := List.mem_map.mp hv
      obtain ⟨xs, hxs, hxl⟩ := hvals sv hsv
      rw [hxs]
      exact hxl
    have hCget : ∀ j, C.get? j =
        (d.series.get? j).map (fun sv => sv.2.contents) := by
      intro j
      rw [← hC, List.get?_map, List.get?_map, Option.map_map]
      rfl
    have hCn : C.length = d.series.length := by
      rw [← hC, List.length_map, List.length_map]
    rcases Nat.eq_zero_or_pos L with hL0 | hLpos
    · -- every series is empty: the rebuilt column list is empty and the
      -- write-back loop leaves the series mapping unchanged
      subst hL0
      have hpnil : p = [] := List.Perm.eq_nil (by rw [← List.range_zero]; exact hp)
      subst hpnil
      have hres : d.shuffle [] = Except.ok ⟨d.name, d.series, d.series_outputs⟩ := by
        unfold Dataset.shuffle
        rw [hmapM]
        simp [pyZip_nil]
      refine ⟨_, hres, rfl, rfl, rfl, ?_, id, Function.bijective_id, ?_⟩
      · intro sv hsv
        obtain ⟨xs, hxs, hxl⟩ := hvals sv hsv
        rw [hxs]
        exact hxl
      · intro j i
        exact i.elim0
    · -- the main case: at least one series, each of positive length L
      obtain ⟨zipped, hzip⟩ : ∃ z, pyZip C = z := ⟨_, rfl⟩
      have hCne : C ≠ [] := by
        intro hnil
        rw [hnil] at hCn
        exact hser (List.eq_nil_of_length_eq_zero hCn.symm)
      have hzget : ∀ i, zipped.get? i =
          if i < L then some (C.filterMap (fun c => c.get? i)) else Option.none := by
        intro i
        rw [← hzip]
        exact pyZip_get? L C hCne hClen i
      have hpmem : ∀ a ∈ p, a < L := fun a ha => List.mem_range.mp (hp.subset ha)
      have hssome : ∀ a ∈ p, (zipped.get? a).isSome := by
        intro a ha
        rw [hzget a, if_pos (hpmem a ha)]
        rfl
      obtain ⟨shuffled, hshuf⟩ :
          ∃ s, p.filterMap (fun i => zipped.get? i) = s := ⟨_, rfl⟩
      have hplen : p.length = L := by rw [hp.length_eq, List.length_range]
      have hslen : shuffled.length = L := by
        rw [← hshuf, filterMap_length_all _ _ hssome, hplen]
      have hsget : ∀ t, shuffled.get? t =
          (p.get? t).bind (fun a => zipped.get? a) := by
        intro t
        rw [← hshuf]
        exact filterMap_get?_all _ _ hssome t
      have hrows : ∀ r ∈ shuffled, r.length = d.series.length := by
        intro r hr
        rw [← hshuf] at hr
        obtain ⟨a, ha, hget⟩ := List.mem_filterMap.mp hr
        rw [hzget a, if_pos (hpmem a ha)] at hget
        rw [← Option.some.inj hget,
          filterMap_length_all _ _ (fun c hc => hget_isSome c a (by
            rw [hClen c hc]; exact hpmem a ha)), hCn]
      have hsne : shuffled ≠ [] := by
        intro hnil
        rw [hnil] at hslen
        simp at hslen
        omega
      obtain ⟨newCols, hnc⟩ : ∃ nc, pyZip shuffled = nc := ⟨_, rfl⟩
      have hncget : ∀ s, newCols.get? s =
          if s < d.series.length then
            some (shuffled.filterMap (fun r => r.get? s))
          else Option.none := by
        intro s
        rw [← hnc]
        exact pyZip_get? d.series.length shuffled hsne hrows s
      have hnclen : newCols.length = d.series.length :=
        hnc ▸ pyZip_length d.series.length shuffled hsne hrows
      have hdropnil : d.series.drop newCols.length = [] := by
        rw [hnclen]
        exact List.drop_length d.series
      have hres : d.shuffle p = Except.ok
          ⟨d.name,
            (d.series.zip newCols).map (fun kv => (kv.1.1, SeriesValue.tuple kv.2)),
            d.series_outputs⟩ := by
        unfold Dataset.shuffle
        rw [hmapM]
        simp only [hzip, hshuf, hnc, hdropnil, List.append_nil]
      -- the permutation
      have hidx : ∀ i : Fin L, i.val < p.length := fun i => by
        rw [hplen]; exact i.isLt
      have hnodup : p.Nodup := hp.nodup_iff.mpr (List.nodup_range L)
      refine ⟨_, hres, rfl, rfl, ?_, ?_,
        fun i => ⟨p.get ⟨i.val, hidx i⟩, hpmem _ (List.get_mem p _ _)⟩, ?_, ?_⟩
      · -- keys unchanged
        rw [List.map_map]
        have hstep : (d.series.zip newCols).map
            ((fun sv => sv.1) ∘ (fun kv => (kv.1.1, SeriesValue.tuple kv.2))) =
            ((d.series.zip newCols).map Prod.fst).map Prod.fst := by
          rw [List.map_map]
          rfl
        rw [hstep, List.map_fst_zip _ _ (le_of_eq hnclen.symm)]
      · -- all rebuilt series have length L
        intro sv hsv
        obtain ⟨kv, hkv, rfl⟩ := List.mem_map.mp hsv
        obtain ⟨a, b⟩ := kv
        have hb : b ∈ newCols := (List.of_mem_zip hkv).2
        obtain ⟨s, hs⟩ := List.mem_iff_get?.mp hb
        rw [hncget s] at hs
        by_cases hsn : s < d.series.length
        · rw [if_pos hsn] at hs
          have hb2 : b = shuffled.filterMap (fun r => r.get? s) :=
            (Option.some.inj hs).symm
          show b.length = L
          rw [hb2, filterMap_length_all _ _ (fun r hr =>
            hget_isSome r s (by rw [hrows r hr]; exact hsn)), hslen]
        · rw [if_neg hsn] at hs
          exact absurd hs (by simp)
      · -- bijectivity
        refine Finite.injective_iff_bijective.mp ?_
        intro i1 i2 h
        have hv : p.get ⟨i1.val, hidx i1⟩ = p.get ⟨i2.val, hidx i2⟩ :=
          congrArg Fin.val h
        have h2 := (List.Nodup.get_inj_iff hnodup).mp hv
        have hval : i1.val = i2.val := by simpa using h2
        exact Fin.ext hval
      · -- the pointwise permutation equation
        intro j i
        have hpgetl : p.get? i.val = some (p.get ⟨i.val, hidx i⟩) :=
          List.get?_eq_get (hidx i)
        by_cases hj : j < d.series.length
        · have hserj : d.series.get? j = some (d.series.get ⟨j, hj⟩) :=
            List.get?_eq_get hj
          have hncj : newCols.get? j =
              some (shuffled.filterMap (fun r => r.get? j)) := by
            rw [hncget j, if_pos hj]
          have hlhs : ((d.series.zip newCols).map
              (fun kv => (kv.1.1, SeriesValue.tuple kv.2))).get? j =
              some ((d.series.get ⟨j, hj⟩).1,
                SeriesValue.tuple (shuffled.filterMap (fun r => r.get? j))) := by
            rw [List.get?_map, zip_get? d.series newCols j, hserj, hncj]
            rfl
          have hcol : (shuffled.filterMap (fun r => r.get? j)).get? i.val =
              (d.series.get ⟨j, hj⟩).2.contents.get? (p.get ⟨i.val, hidx i⟩) := by
            rw [filterMap_get?_all _ _ (fun r hr =>
                hget_isSome r j (by rw [hrows r hr]; exact hj)) i.val,
              hsget i.val, hpgetl, Option.some_bind,
              hzget, if_pos (hpmem _ (List.get_mem p _ _)), Option.some_bind,
              filterMap_get?_all _ _ (fun c hc =>
                hget_isSome c _ (by
                  rw [hClen c hc]; exact hpmem _ (List.get_mem p _ _))) j,
              hCget j, hserj]
            rfl
          rw [hlhs, hserj]
          simp only [Option.map_some', SeriesValue.contents]
          rw [hcol]
          rfl
        · have hlen1 : ((d.series.zip newCols).map
              (fun kv => (kv.1.1, SeriesValue.tuple kv.2))).length =
              d.series.length := by
            rw [List.length_map, List.length_zip, hnclen, Nat.min_self]
          have h1 : ((d.series.zip newCols).map
              (fun kv => (kv.1.1, SeriesValue.tuple kv.2))).get? j = Option.none := by
            rw [List.get?_eq_none]
            omega
          have h2 : d.series.get? j = Option.none := by
            rw [List.get?_eq_none]
            omega
          rw [h1, h2]
          rfl

/-- Witness for `shuffle_synchronized_permutation`: two aligned series
of length 2, shuffled by the transposition `p = [1, 0]`. -/
theorem shuffle_witness :
    (∀ sv ∈ [("src", SeriesValue.list ["a", "b"]),
        ("tgt", SeriesValue.list ["x", "y"])],
      ∃ xs : List String, sv.2 = SeriesValue.list xs ∧ xs.length = 2) ∧
      ([1, 0] : List Nat).Perm (List.range 2) ∧
      ∃ d' : Dataset String,
        Dataset.shuffle ⟨"d", [("src", SeriesValue.list ["a", "b"]),
          ("tgt", SeriesValue.list ["x", "y"])], []⟩ [1, 0] = Except.ok d' ∧
        d'.name = "d" ∧ d'.series_outputs = [] ∧
        d'.series.map Prod.fst = ["src", "tgt"] ∧
        (∀ sv ∈ d'.series, sv.2.contents.length = 2) ∧
        ∃ pi : Fin 2 → Fin 2, Function.Bijective pi ∧
          ∀ (j : Nat) (i : Fin 2),
            ((d'.series.get? j).map (fun sv => sv.2.contents.get? i.val)) =
              (([("src", SeriesValue.list ["a", "b"]),
                ("tgt", SeriesValue.list ["x", "y"])].get? j).map
                  (fun sv => sv.2.contents.get? (pi i).val)) := by
  have hv : ∀ sv ∈ [("src", SeriesValue.list ["a", "b"]),
      ("tgt", SeriesValue.list ["x", "y"])],
      ∃ xs : List String, sv.2 = SeriesValue.list xs ∧ xs.length = 2 := by
    intro sv hsv
    rcases List.mem_cons.mp hsv with rfl | hsv2
    · exact ⟨["a", "b"], rfl, rfl⟩
    rcases List.mem_cons.mp hsv2 with rfl | hsv3
    · exact ⟨["x", "y"], rfl, rfl⟩
    · exact absurd hsv3 (List.not_mem_nil sv)
  refine ⟨hv, by decide, ?_⟩
  exact shuffle_synchronized_permutation
    ⟨"d", [("src", SeriesValue.list ["a", "b"]),
      ("tgt", SeriesValue.list ["x", "y"])], []⟩ 2 [1, 0] hv (by decide)

/-- Witness exercising `series_key_convention`: the source form on
`"s_src"`, and the greedy output capture on `"s_a_out_out"` (group
`"a_out"`, the longest valid one). -/
theorem series_key_convention_witness :
    seriesSourceMatch "s_src".data = some "src".data ∧
      seriesOutputMatch "s_a_out_out".data = some ("a_out".data) ∧
      (∃ suf, "s_a_out_out".data = 's' :: '_' :: ("a_out".data ++ outChars ++ suf)) :=
  ⟨by decide, by decide,
    ((series_key_convention.2.1 "s_a_out_out".data "a_out".data).mp (by decide)).1⟩

end Neuralmonkey
